import Mathlib

/-!
Verification development for the overtrue/pinyin.rs repository.

Strings are modelled as `List Char`; Rust machine integers as `Nat`.
Rust panics are modelled as `none` / a dedicated `panicked` constructor,
and fallible parsing (`Result`) by the three-valued `ParseRes`.
The Aho-Corasick matcher (external daachorse crate) and the dictionary
data files (not part of the sources) are modelled from the spec where
noted.
-/

/-- Alias for a (word, pinyin-annotation) dictionary pair, both plain
character lists, as in `Vec<(String, String)>` of `matcher.rs`. -/
abbrev KV := List Char × List Char

/-- Number of bytes of the UTF-8 encoding of a character; models Rust's
`str::len` contribution of one `char`. -/
def utf8CharLen (c : Char) : Nat :=
  if c.toNat < 0x80 then 1
  else if c.toNat < 0x800 then 2
  else if c.toNat < 0x10000 then 3
  else 4

/-- Byte length of a string, Rust's `str::len`. -/
def byteLen (s : List Char) : Nat :=
  (s.map utf8CharLen).sum

/-- Rust's `char::is_ascii_alphabetic`. -/
def isAsciiAlphabetic (c : Char) : Bool :=
  (65 ≤ c.toNat && c.toNat ≤ 90) || (97 ≤ c.toNat && c.toNat ≤ 122)

/-- Model of `char::is_numeric` restricted to the ASCII digits; the pinyin
encodings handled by the library only ever carry ASCII tone digits. -/
def isDigitChar (c : Char) : Bool :=
  48 ≤ c.toNat && c.toNat ≤ 57

/-- Fuel-indexed worker for `replaceList`.  Fuel at least the length of the
string makes it total; the fuel is threaded structurally so that the
kernel can evaluate it. -/
def replaceGo : Nat → List Char → List Char → List Char → List Char
  | 0, s, _, _ => s
  | _ + 1, [], _, _ => []
  | f + 1, c :: rest, pat, rep =>
    if pat ≠ [] ∧ pat.isPrefixOf (c :: rest) then
      rep ++ replaceGo f (List.drop (pat.length - 1) rest) pat rep
    else
      c :: replaceGo f rest pat rep

/-- Rust's `String::replace`: replace every non-overlapping occurrence of
`pat` (left to right) by `rep`.  Only called with non-empty patterns. -/
def replaceList (s pat rep : List Char) : List Char :=
  replaceGo s.length s pat rep

/-- Rust's `str::contains` for a substring pattern. -/
def containsSub : List Char → List Char → Bool
  | [], pat => pat.isEmpty
  | s@(_ :: rest), pat => pat.isPrefixOf s || containsSub rest pat

/-- Rust's `str::split(sep)`: the list of separated parts (always
non-empty). -/
def splitOnChar (sep : Char) : List Char → List (List Char)
  | [] => [[]]
  | c :: rest =>
    if c = sep then [] :: splitOnChar sep rest
    else
      match splitOnChar sep rest with
      | [] => [[c]]
      | p :: ps => (c :: p) :: ps

/-- Index of the first occurrence of `c` in `l` (Rust's
`iter().position(|x| x == c)`). -/
def posIn : List Char → Char → Option Nat
  | [], _ => none
  | x :: xs, c => if x = c then some 0 else (posIn xs c).map (· + 1)

/-- Decimal digit characters of a natural number, Rust's `{}` formatting
for integers. -/
def natChars (n : Nat) : List Char :=
  Nat.toDigits 10 n

-- ## Pinyin value (src/lib.rs)

/-- The `Pinyin` struct of `src/lib.rs`: a syllable and a tone. -/
structure Pinyin where
  pinyin : List Char
  tone : Nat
deriving DecidableEq, Repr

/-- Result of a Rust function returning `Result<T, PingyinError>` that may
additionally panic. -/
inductive ParseRes (α : Type) where
  | ok : α → ParseRes α
  | err : ParseRes α
  | panicked : ParseRes α
deriving DecidableEq, Repr

/-- `Pinyin::new` (src/lib.rs:19-32).  Panics (here `none`) unless the tone
is in `1..=5`, the syllable is non-empty, and every character is an ASCII
letter or `ü`. -/
def Pinyin.new (py : List Char) (tone : Nat) : Option Pinyin :=
  if 1 ≤ tone ∧ tone ≤ 5 then
    if py = [] then none
    else if py.all (fun c => isAsciiAlphabetic c || c == 'ü') then
      some ⟨py, tone⟩
    else none
  else none

/-- The `ToneStyle` enum of `src/lib.rs`. -/
inductive ToneStyle where
  | Number
  | Mark
  | None
deriving DecidableEq, Repr

/-- The `YuFormat` enum of `src/lib.rs`. -/
inductive YuFormat where
  | Yu
  | U
  | V
deriving DecidableEq, Repr

/-- The 24 tone-marked vowels of `remove_tone` (src/lib.rs:225-232). -/
def toneMarks : List Char :=
  ['ā', 'á', 'ǎ', 'à', 'ē', 'é', 'ě', 'è', 'ī', 'í', 'ǐ', 'ì',
   'ō', 'ó', 'ǒ', 'ò', 'ū', 'ú', 'ǔ', 'ù', 'ǖ', 'ǘ', 'ǚ', 'ǜ']

/-- The base-vowel substitution of `remove_tone` (src/lib.rs:238-246). -/
def baseVowel (c : Char) : Char :=
  if c = 'ā' ∨ c = 'á' ∨ c = 'ǎ' ∨ c = 'à' then 'a'
  else if c = 'ē' ∨ c = 'é' ∨ c = 'ě' ∨ c = 'è' then 'e'
  else if c = 'ī' ∨ c = 'í' ∨ c = 'ǐ' ∨ c = 'ì' then 'i'
  else if c = 'ō' ∨ c = 'ó' ∨ c = 'ǒ' ∨ c = 'ò' then 'o'
  else if c = 'ū' ∨ c = 'ú' ∨ c = 'ǔ' ∨ c = 'ù' then 'u'
  else if c = 'ǖ' ∨ c = 'ǘ' ∨ c = 'ǚ' ∨ c = 'ǜ' then 'ü'
  else c

/-- Worker of `remove_tone` (src/lib.rs:220-252): replace the first
tone-marked vowel by its base vowel and report the tone (position in the
table modulo 4, plus one); tone 5 when no mark is found. -/
def removeToneGo : List Char → List Char × Nat
  | [] => ([], 5)
  | c :: rest =>
    match posIn toneMarks c with
    | some p => (baseVowel c :: rest, p % 4 + 1)
    | none =>
      let (r, t) := removeToneGo rest
      (c :: r, t)

/-- `remove_tone` (src/lib.rs:220-252). -/
def removeTone (s : List Char) : List Char × Nat :=
  removeToneGo s

/-- `mark_vowel` (src/lib.rs:254-276): the (vowel, tone) diacritic table.
Panics (`none`) when the tone is outside `1..=5` or the character is not a
vowel. -/
def markVowel (vowel : Char) (tone : Nat) : Option Char :=
  if 1 ≤ tone ∧ tone ≤ 5 then
    if tone = 5 then some vowel
    else
      let idx : Option Nat :=
        if vowel = 'a' then some tone
        else if vowel = 'e' then some (tone + 4)
        else if vowel = 'i' then some (tone + 8)
        else if vowel = 'o' then some (tone + 12)
        else if vowel = 'u' then some (tone + 16)
        else if vowel = 'ü' then some (tone + 20)
        else none
      match idx with
      | some i => toneMarks.get? (i - 1)
      | none => none
  else none

/-- Literal model of the vowel-scanning loop of `format_to_mark`
(src/lib.rs:203-210).  The guard `*c != 'i' || *c != 'u' || *c != 'ü'` is
kept as written in the source (it holds for every character, so the loop
stops at the first vowel). -/
def scanVowel : List Char → Nat → Int → Int
  | [], _, last => last
  | c :: rest, idx, last =>
    if c = 'a' ∨ c = 'e' ∨ c = 'i' ∨ c = 'o' ∨ c = 'u' ∨ c = 'ü' then
      let last' : Int := idx
      if ¬(c = 'i') ∨ ¬(c = 'u') ∨ ¬(c = 'ü') then last'
      else scanVowel rest (idx + 1) last'
    else scanVowel rest (idx + 1) last

/-- `format_to_mark` (src/lib.rs:197-218): put the tone diacritic on the
vowel selected by `scanVowel`.  `none` models the `mark_vowel` panic. -/
def formatToMark (s : List Char) (tone : Nat) : Option (List Char) :=
  let lastVowelIdx := scanVowel s 0 (-1)
  if lastVowelIdx > -1 then
    let i := lastVowelIdx.toNat
    match markVowel (s.getD i ' ') tone with
    | some v => some (s.set i v)
    | none => none
  else some s

/-- `Display for Pinyin` (src/lib.rs:75-79): syllable followed by the tone
digit. -/
def Pinyin.toChars (p : Pinyin) : List Char :=
  p.pinyin ++ natChars p.tone

/-- `Pinyin::format` (src/lib.rs:40-46).  `none` models a panic inside
`format_to_mark`. -/
def Pinyin.format (p : Pinyin) (style : ToneStyle) : Option (List Char) :=
  match style with
  | ToneStyle.Number => some p.toChars
  | ToneStyle.Mark => formatToMark p.pinyin p.tone
  | ToneStyle.None => some (replaceList p.pinyin ['ü'] ['v'])

/-- `Pinyin::format_with_yu` (src/lib.rs:48-72). -/
def Pinyin.formatWithYu (p : Pinyin) (style : ToneStyle) (yf : YuFormat) :
    Option (List Char) :=
  let py :=
    match yf with
    | YuFormat.Yu =>
      if containsSub p.pinyin ['ü', 'e'] then p.pinyin
      else replaceList p.pinyin ['ü'] ['y', 'u']
    | YuFormat.V => replaceList p.pinyin ['ü'] ['v']
    | YuFormat.U =>
      replaceList (replaceList p.pinyin ['v'] ['ü']) ['y', 'u'] ['ü']
  if (containsSub py ['l', 'y', 'u'] || containsSub py ['n', 'y', 'u'])
      ∧ style ≠ ToneStyle.None then
    some py
  else
    match style with
    | ToneStyle.Number => some (py ++ natChars p.tone)
    | ToneStyle.Mark => formatToMark py p.tone
    | ToneStyle.None => some (replaceList py ['ü'] ['v'])

/-- `FromStr for Pinyin` (src/lib.rs:87-110).  Note the original computes
`s.chars().take(s.len() - 1)` with `s.len()` the BYTE length. -/
def Pinyin.fromStr (s : List Char) : ParseRes Pinyin :=
  if s = [] then ParseRes.err
  else
    let c := s.getLastD ' '
    if isDigitChar c then
      let tone := c.toNat - 48
      let py := s.take (byteLen s - 1)
      if tone > 5 then ParseRes.err
      else
        match Pinyin.new py tone with
        | some p => ParseRes.ok p
        | none => ParseRes.panicked
    else
      let pt := removeTone s
      match Pinyin.new pt.1 pt.2 with
      | some p => ParseRes.ok p
      | none => ParseRes.panicked

-- ## PinyinWord (src/lib.rs)

/-- The `PinyinWord` struct of `src/lib.rs`: a Han word together with its
ordered pinyin readings. -/
structure PinyinWord where
  word : List Char
  pinyin : List Pinyin
deriving DecidableEq, Repr

/-- Sequential parsing of the space-separated pinyin pieces in
`FromStr for PinyinWord` (src/lib.rs:156-163); the first failure
propagates, as with `?` and panics in the source. -/
def parsePinyinList : List (List Char) → ParseRes (List Pinyin)
  | [] => ParseRes.ok []
  | p :: ps =>
    match Pinyin.fromStr p with
    | ParseRes.ok py =>
      match parsePinyinList ps with
      | ParseRes.ok rest => ParseRes.ok (py :: rest)
      | ParseRes.err => ParseRes.err
      | ParseRes.panicked => ParseRes.panicked
    | ParseRes.err => ParseRes.err
    | ParseRes.panicked => ParseRes.panicked

/-- `FromStr for PinyinWord` (src/lib.rs:146-167): split on the first `:`;
the part before it is the word, the part after it is split on spaces and
parsed as pinyin values. -/
def PinyinWord.fromStr (s : List Char) : ParseRes PinyinWord :=
  match splitOnChar ':' s with
  | [] => ParseRes.err
  | [_] => ParseRes.err
  | w :: p :: _ =>
    match parsePinyinList (splitOnChar ' ' p) with
    | ParseRes.ok ps => ParseRes.ok ⟨w, ps⟩
    | ParseRes.err => ParseRes.err
    | ParseRes.panicked => ParseRes.panicked

-- ## Matcher (src/matcher.rs)

/-- Longest dictionary key that is a prefix of `rem` (with its value),
chosen by a left-to-right fold over the dictionary entries.  Modelled from
the spec: this is the per-position longest-match step of the daachorse
`CharwiseDoubleArrayAhoCorasick` automaton with `MatchKind::LeftmostLongest`
(an external crate, not part of these sources). -/
def longestAt (dict : List KV) (rem : List Char) : Option KV :=
  dict.foldl
    (fun best kv =>
      if kv.1 ≠ [] ∧ kv.1.isPrefixOf rem then
        match best with
        | none => some kv
        | some b => if b.1.length < kv.1.length then some kv else best
      else best)
    none

/-- Fuel-indexed leftmost-longest scan.  Modelled from the spec (§4.3):
walk the query left to right; at each position emit the longest key
matching there and jump past it, otherwise advance one character. -/
def lmIterGo : Nat → List KV → List Char → List KV
  | 0, _, _ => []
  | f + 1, dict, q =>
    match q with
    | [] => []
    | c :: rest =>
      match longestAt dict (c :: rest) with
      | some kv => kv :: lmIterGo f dict (List.drop (kv.1.length - 1) rest)
      | none => lmIterGo f dict rest

/-- `leftmost_find_iter` over one automaton, collecting the matched
(substring, value) pairs (src/matcher.rs:49-57). -/
def lmIter (dict : List KV) (q : List Char) : List KV :=
  lmIterGo q.length dict q

/-- Deduplication of match pairs by key, modelling collection into a
`HashMap` (src/matcher.rs:49-64); for duplicate keys the last inserted
value survives.  Dictionary shards are key-disjoint, so the choice never
matters for the real data. -/
def dedupeKeys : List KV → List KV
  | [] => []
  | kv :: rest =>
    if rest.any (fun x => x.1 == kv.1) then dedupeKeys rest
    else kv :: dedupeKeys rest

/-- Lexicographic `≤` on character lists by code point; Rust's `str::cmp`
is byte-wise lexicographic on UTF-8, which coincides with code-point
order. -/
def lexLe : List Char → List Char → Bool
  | [], _ => true
  | _ :: _, [] => false
  | a :: as, b :: bs =>
    if a.toNat < b.toNat then true
    else if b.toNat < a.toNat then false
    else lexLe as bs

/-- `sort_by_key_length_desc` (src/matcher.rs:67-71): the entries are
sorted with the comparator `k2.cmp(k1)`, i.e. in descending lexicographic
key order. -/
def sortByKeyLengthDesc (entries : List KV) : List KV :=
  List.insertionSort (fun a b => lexLe b.1 a.1) entries

/-- `Matcher::match_to_pinyin` (src/matcher.rs:48-64): per-shard
leftmost-longest hits are deduplicated per shard, concatenated, and, when
`desc_by_key` is set, merged into one map and sorted. -/
def matchToPinyin (handlers : List (List KV)) (q : List Char)
    (descByKey : Bool) : List KV :=
  let hits := handlers.flatMap (fun d => dedupeKeys (lmIter d q))
  if descByKey then sortByKeyLengthDesc (dedupeKeys hits) else hits

/-- `match_word_pinyin` (src/matcher.rs:98-119): the words matcher's hits
followed by the chars matcher's hits, each sorted. -/
def matchWordPinyin (wordsH charsH : List (List KV)) (q : List Char) :
    List KV :=
  matchToPinyin wordsH q true ++ matchToPinyin charsH q true

/-- `match_surname_pinyin` (src/matcher.rs:121-146): match the surnames
dictionary against the first two characters, then the rest of the name
with `match_word_pinyin`.  `none` models the `results[0]` panic when no
surname matched. -/
def matchSurnamePinyin (surnameH wordsH charsH : List (List KV))
    (surname : List Char) : Option (List KV) :=
  let lastName := surname.take 2
  let results := matchToPinyin surnameH lastName true
  match results with
  | [] => none
  | r0 :: _ =>
    let firstName := surname.drop r0.1.length
    some (results ++
      (if firstName ≠ [] then matchWordPinyin wordsH charsH firstName
       else []))

-- ## Converter (src/converter.rs)

/-- The `Converter` struct (src/converter.rs:5-12). -/
structure Converter where
  input : List Char
  toneStyle : ToneStyle
  yuFormat : YuFormat
  surnameMode : Bool
  flatten : Bool
  onlyHans : Bool
deriving DecidableEq, Repr

/-- `Converter::new` (src/converter.rs:15-24). -/
def Converter.new (input : List Char) : Converter :=
  ⟨input, ToneStyle.Mark, YuFormat.U, false, false, false⟩

/-- `Converter::yu_to_v` (src/converter.rs:142-146): sets the ü-format to
`V` and also resets the tone style to `None`. -/
def Converter.yuToV (c : Converter) : Converter :=
  { c with yuFormat := YuFormat.V, toneStyle := ToneStyle.None }

/-- `Converter::as_surnames` (src/converter.rs:153-157): enables surname
mode and also flatten. -/
def Converter.asSurnames (c : Converter) : Converter :=
  { c with surnameMode := true, flatten := true }

/-- `Converter::only_hans` (src/converter.rs:159-162). -/
def Converter.withOnlyHans (c : Converter) : Converter :=
  { c with onlyHans := true }

/-- Result of running `Converter::convert`: a value or a panic. -/
inductive RunRes (α : Type) where
  | ok : α → RunRes α
  | panicked : RunRes α
deriving DecidableEq, Repr

/-- The candidate scan of the `while` loop (src/converter.rs:56-76): the
first candidate after `skip` whose word matches the input characters at
position `i`. -/
def findMatch (cands : List KV) (skip : Nat) (inputChars : List Char)
    (n i : Nat) : Option KV :=
  (cands.drop skip).find?
    (fun kv => decide (i + kv.1.length ≤ n)
      && ((inputChars.drop i).take kv.1.length == kv.1))

/-- The `while i < input_len` loop of `Converter::convert`
(src/converter.rs:53-85), fuel-indexed: `none` means the fuel ran out
(the loop did not terminate within `fuel` iterations), `some .panicked`
models a panic, `some (.ok out)` a normal return with the emitted
entries.  Note that when no candidate matches and `only_hans` is set the
source advances neither `i` nor the result. -/
def convertLoop : Nat → List KV → Nat → Bool → Bool → List Char → Nat →
    Nat → List PinyinWord → Option (RunRes (List PinyinWord))
  | 0, _, _, _, _, _, _, _, _ => none
  | f + 1, cands, skip, flat, onlyH, inputChars, n, i, acc =>
    if i < n then
      match findMatch cands skip inputChars n i with
      | some kv =>
        match PinyinWord.fromStr (kv.1 ++ ':' :: kv.2) with
        | ParseRes.ok pw =>
          let pw2 :=
            if flat then { pw with pinyin := pw.pinyin.take kv.1.length }
            else pw
          convertLoop f cands skip flat onlyH inputChars n
            (i + kv.1.length) (acc ++ [pw2])
        | _ => some RunRes.panicked
      | none =>
        if onlyH then
          convertLoop f cands skip flat onlyH inputChars n i acc
        else
          let ch := inputChars.getD i ' '
          match Pinyin.new [ch] 5 with
          | some py =>
            convertLoop f cands skip flat onlyH inputChars n (i + 1)
              (acc ++ [⟨[ch], [py]⟩])
          | none => some RunRes.panicked
    else some (RunRes.ok acc)

/-- `Converter::convert` (src/converter.rs:26-91), parameterized by the
dictionary shards of the surnames, words and chars matchers (the
dictionary data files are not part of these sources) and by loop fuel:
`none` means the `while` loop did not finish within `fuel` iterations. -/
def Converter.convertWith (fuel : Nat) (c : Converter)
    (surnameH wordsH charsH : List (List KV)) :
    Option (RunRes (List PinyinWord)) :=
  let inputChars := c.input
  let n := inputChars.length
  let mw :=
    if c.surnameMode then matchSurnamePinyin surnameH wordsH charsH c.input
    else some (matchWordPinyin wordsH charsH c.input)
  match mw with
  | none => some RunRes.panicked
  | some matchedWords =>
    if c.surnameMode then
      match matchedWords with
      | [] => convertLoop fuel matchedWords 0 c.flatten c.onlyHans
          inputChars n 0 []
      | kv :: _ =>
        match PinyinWord.fromStr (kv.1 ++ ':' :: kv.2) with
        | ParseRes.ok pw =>
          convertLoop fuel matchedWords 1 c.flatten c.onlyHans
            inputChars n kv.1.length [pw]
        | _ => some RunRes.panicked
    else
      convertLoop fuel matchedWords 0 c.flatten c.onlyHans inputChars n 0 []

-- ## Spec-side definitions for refinement claims

/-- Modelled from the spec:  the canonical tone-mark nucleus rule of §4.1
("if `a` is present, mark it; else if `e` is present, mark it; else if the
syllable is \x22ou\x22, mark `o`; else mark the last of `i/u/ü` that
appears").  Used only to compare against `format_to_mark`. -/
def canonicalMarkIndex (s : List Char) : Option Nat :=
  match posIn s 'a' with
  | some i => some i
  | none =>
    match posIn s 'e' with
    | some i => some i
    | none =>
      if s = ['o', 'u'] then some 0
      else
        (List.range s.length).foldl
          (fun acc i =>
            if s.getD i ' ' = 'i' ∨ s.getD i ' ' = 'u' ∨ s.getD i ' ' = 'ü'
            then some i else acc)
          none

/-- Modelled from the spec: tone-mark rendering following the canonical
rule of §4.1 with the diacritic table of `mark_vowel`. -/
def canonicalToneMark (s : List Char) (tone : Nat) : Option (List Char) :=
  match canonicalMarkIndex s with
  | none => some s
  | some i => (markVowel (s.getD i ' ') tone).map (fun v => s.set i v)

/-- The property asserted by the spec for candidate lists: each entry's key
is at least as long (in characters) as the key of the entry that follows
it. -/
def lenDescChain : List KV → Bool
  | [] => true
  | [_] => true
  | a :: b :: rest => (b.1.length ≤ a.1.length : Bool) && lenDescChain (b :: rest)

-- ## Helper lemmas

theorem posIn_eq_none {l : List Char} {c : Char} (h : c ∉ l) :
    posIn l c = none := by
  induction l with
  | nil => rfl
  | cons x xs ih =>
    have hx : x ≠ c := fun he => h (he ▸ List.mem_cons_self x xs)
    have hc : c ∉ xs := fun hm => h (List.mem_cons_of_mem x hm)
    simp [posIn, hx, ih hc]

theorem notToneMark {c : Char}
    (h : isAsciiAlphabetic c = true ∨ c = 'ü') :
    posIn toneMarks c = none := by
  apply posIn_eq_none
  rcases h with h | h
  · have hle : c.toNat ≤ 122 := by
      unfold isAsciiAlphabetic at h
      simp only [Bool.or_eq_true, Bool.and_eq_true, decide_eq_true_eq] at h
      omega
    intro hm
    have hall : ∀ x ∈ toneMarks, 224 ≤ x.toNat := by decide
    have := hall c hm
    omega
  · subst h; decide

theorem removeTone_id {s : List Char}
    (h : ∀ c ∈ s, isAsciiAlphabetic c = true ∨ c = 'ü') :
    removeTone s = (s, 5) := by
  unfold removeTone
  induction s with
  | nil => rfl
  | cons c rest ih =>
    have hc := notToneMark (h c (List.mem_cons_self c rest))
    have hr : removeToneGo rest = (rest, 5) :=
      ih (fun x hx => h x (List.mem_cons_of_mem c hx))
    simp [removeToneGo, hc, hr]

theorem byteLen_ascii {s : List Char} (h : ∀ c ∈ s, c.toNat < 128) :
    byteLen s = s.length := by
  induction s with
  | nil => rfl
  | cons c rest ih =>
    have hc : utf8CharLen c = 1 := by
      unfold utf8CharLen
      rw [if_pos (h c (List.mem_cons_self c rest))]
    have hr := ih (fun x hx => h x (List.mem_cons_of_mem c hx))
    simp [byteLen, List.map_cons, hc] at hr ⊢
    omega

theorem alpha_toNat_lt {c : Char} (h : isAsciiAlphabetic c = true) :
    c.toNat < 128 := by
  unfold isAsciiAlphabetic at h
  simp only [Bool.or_eq_true, Bool.and_eq_true, decide_eq_true_eq] at h
  omega

theorem pinyinNew_ok {s : List Char} {t : Nat} (hs : s ≠ [])
    (ha : ∀ c ∈ s, isAsciiAlphabetic c = true ∨ c = 'ü')
    (h1 : 1 ≤ t) (h5 : t ≤ 5) :
    Pinyin.new s t = some ⟨s, t⟩ := by
  unfold Pinyin.new
  rw [if_pos ⟨h1, h5⟩, if_neg hs, if_pos]
  apply List.all_eq_true.mpr
  intro c hc
  rcases ha c hc with h | h
  · simp [h]
  · simp [h]

theorem replaceGo_not_mem {c : Char} {rep : List Char} :
    ∀ (f : Nat) (s : List Char), c ∉ s → replaceGo f s [c] rep = s := by
  intro f
  induction f with
  | zero => intro s _; rfl
  | succ f ih =>
    intro s hs
    match s with
    | [] => rfl
    | a :: rest =>
      have hac : a ≠ c := fun he => hs (he ▸ List.mem_cons_self a rest)
      have hrest : c ∉ rest := fun hm => hs (List.mem_cons_of_mem a hm)
      have hpre : ¬([c].isPrefixOf (a :: rest) = true) := by
        simp [List.isPrefixOf]
        exact fun he => hac he.symm
      simp only [replaceGo]
      rw [if_neg (by simp [hpre]), ih rest hrest]

theorem not_mem_replaceGo {c : Char} {rep : List Char} (hrep : c ∉ rep) :
    ∀ (f : Nat) (s : List Char), s.length ≤ f →
      c ∉ replaceGo f s [c] rep := by
  intro f
  induction f with
  | zero =>
    intro s hs
    have : s = [] := List.eq_nil_of_length_eq_zero (Nat.le_zero.mp hs)
    subst this; simp [replaceGo]
  | succ f ih =>
    intro s hs
    match s with
    | [] => simp [replaceGo]
    | a :: rest =>
      have hlen : rest.length ≤ f := by
        simp only [List.length_cons] at hs; omega
      by_cases hac : c = a
      · subst hac
        have hpre : [c].isPrefixOf (c :: rest) = true := by
          simp [List.isPrefixOf]
        simp only [replaceGo]
        rw [if_pos (by simp [hpre])]
        intro hmem
        rcases List.mem_append.mp hmem with h | h
        · exact hrep h
        · exact ih (List.drop (1 - 1) rest) (by simpa using hlen) h
      · have hpre : ¬([c].isPrefixOf (a :: rest) = true) := by
          simp [List.isPrefixOf]
          exact fun he => hac he
        simp only [replaceGo]
        rw [if_neg (by simp [hpre])]
        intro hmem
        rcases List.mem_cons.mp hmem with h | h
        · exact hac h
        · exact ih rest hlen h

theorem lexLe_total : ∀ a b : List Char, lexLe a b = true ∨ lexLe b a = true := by
  intro a
  induction a with
  | nil => intro b; left; rfl
  | cons x xs ih =>
    intro b
    match b with
    | [] => right; rfl
    | y :: ys =>
      by_cases h1 : x.toNat < y.toNat
      · left; simp [lexLe, h1]
      · by_cases h2 : y.toNat < x.toNat
        · right; simp [lexLe, h2]
        · rcases ih ys with h | h
          · left; simp [lexLe, h1, h2, h]
          · right; simp [lexLe, h1, h2, h]

theorem lexLe_cons (x y : Char) (xs ys : List Char) :
    lexLe (x :: xs) (y :: ys) =
      if x.toNat < y.toNat then true
      else if y.toNat < x.toNat then false
      else lexLe xs ys := rfl

theorem lexLe_trans :
    ∀ a b c : List Char, lexLe a b = true → lexLe b c = true →
      lexLe a c = true := by
  intro a
  induction a with
  | nil => intro b c _ _; rfl
  | cons x xs ih =>
    intro b c hab hbc
    match b, c with
    | [], _ =>
      have h : lexLe (x :: xs) [] = false := rfl
      rw [h] at hab; exact Bool.noConfusion hab
    | w :: ws, [] =>
      have h : lexLe (w :: ws) [] = false := rfl
      rw [h] at hbc; exact Bool.noConfusion hbc
    | y :: ys, z :: zs =>
      rw [lexLe_cons] at hab hbc ⊢
      by_cases h1 : x.toNat < y.toNat
      · by_cases h2 : y.toNat < z.toNat
        · rw [if_pos (by omega)]
        · rw [if_neg h2] at hbc
          by_cases h3 : z.toNat < y.toNat
          · rw [if_pos h3] at hbc; exact absurd hbc (by decide)
          · rw [if_pos (by omega)]
      · rw [if_neg h1] at hab
        by_cases h4 : y.toNat < x.toNat
        · rw [if_pos h4] at hab; exact absurd hab (by decide)
        · rw [if_neg h4] at hab
          by_cases h2 : y.toNat < z.toNat
          · rw [if_pos (by omega)]
          · rw [if_neg h2] at hbc
            by_cases h3 : z.toNat < y.toNat
            · rw [if_pos h3] at hbc; exact absurd hbc (by decide)
            · rw [if_neg h3] at hbc
              rw [if_neg (by omega), if_neg (by omega)]
              exact ih ys zs hab hbc

theorem natChars_digit {d : Nat} (hd : d ≤ 9) :
    natChars d = [Char.ofNat (48 + d)] := by
  interval_cases d <;> decide

theorem charOfNat_digit_toNat {d : Nat} (hd : d ≤ 9) :
    (Char.ofNat (48 + d)).toNat = 48 + d := by
  interval_cases d <;> decide

theorem fromStr_append_digit {s : List Char} {D : Char} {d : Nat}
    (hs : s ≠ []) (ha : ∀ c ∈ s, isAsciiAlphabetic c = true)
    (hD : D.toNat = 48 + d) (hd : d ≤ 9) :
    Pinyin.fromStr (s ++ [D]) =
      if 6 ≤ d then ParseRes.err
      else if d = 0 then ParseRes.panicked
      else ParseRes.ok ⟨s, d⟩ := by
  have hbl : byteLen s = s.length :=
    byteLen_ascii (fun c hc => alpha_toNat_lt (ha c hc))
  have hu : utf8CharLen D = 1 := by
    unfold utf8CharLen; rw [if_pos (by omega)]
  have hblc : byteLen (s ++ [D]) = s.length + 1 := by
    unfold byteLen at hbl ⊢
    rw [List.map_append, List.sum_append]
    simp [hu, hbl]
  have hdig : isDigitChar D = true := by
    unfold isDigitChar
    simp only [Bool.and_eq_true, decide_eq_true_eq]
    omega
  have htake : (s ++ [D]).take (byteLen (s ++ [D]) - 1) = s := by
    rw [hblc, Nat.add_sub_cancel]
    exact List.take_left s [D]
  have hlast : (s ++ [D]).getLastD ' ' = D := List.getLastD_concat ' ' D s
  have hne : s ++ [D] ≠ [] := by simp
  unfold Pinyin.fromStr
  rw [if_neg hne]
  simp only [hlast, hdig, if_true, htake, hD]
  have ht : 48 + d - 48 = d := by omega
  rw [ht]
  by_cases h6 : 6 ≤ d
  · rw [if_pos (by omega), if_pos h6]
  · rw [if_neg (by omega), if_neg h6]
    by_cases h0 : d = 0
    · subst h0
      have hnew : Pinyin.new s 0 = none := by
        unfold Pinyin.new; rw [if_neg (by omega)]
      rw [hnew, if_pos rfl]
    · have hnew : Pinyin.new s d = some ⟨s, d⟩ :=
        pinyinNew_ok hs (fun c hc => Or.inl (ha c hc)) (by omega) (by omega)
      rw [hnew, if_neg h0]

theorem fromStr_no_digit {s : List Char} (hs : s ≠ [])
    (ha : ∀ c ∈ s, isAsciiAlphabetic c = true ∨ c = 'ü') :
    Pinyin.fromStr s = ParseRes.ok ⟨s, 5⟩ := by
  have hlastmem : s.getLastD ' ' ∈ s := by
    rw [List.getLastD_eq_getLast?, List.getLast?_eq_getLast s hs]
    exact List.getLast_mem hs
  have hnd : isDigitChar (s.getLastD ' ') = false := by
    unfold isDigitChar
    rcases ha _ hlastmem with h | h
    · have := alpha_toNat_lt h
      unfold isAsciiAlphabetic at h
      simp only [Bool.or_eq_true, Bool.and_eq_true, decide_eq_true_eq] at h
      simp only [Bool.and_eq_false_iff, decide_eq_false_iff_not]
      omega
    · rw [h]; decide
  have hrt : removeTone s = (s, 5) := removeTone_id ha
  have hnew : Pinyin.new s 5 = some ⟨s, 5⟩ :=
    pinyinNew_ok hs ha (by omega) (by omega)
  unfold Pinyin.fromStr
  rw [if_neg hs]
  simp only [hnd, Bool.false_eq_true, if_false, hrt, hnew]

-- ## Claim theorems

/-- C1: with `only_hans` set, the `while` loop of `Converter::convert`
never terminates once the cursor reaches a character that matches no
candidate: the source increments `i` only inside the `!only_hans` branch,
so the loop repeats the same state forever.  Formally, for every fuel
bound the loop fails to finish on the one-character input `，` whenever no
candidate matches at position 0.  This refutes the claimed termination
with the unmatched character dropped and the cursor advanced. -/
theorem claim_C1_only_hans_loop_never_terminates (fuel : Nat)
    (cands : List KV) (h : findMatch cands 0 ['，'] 1 0 = none) :
    convertLoop fuel cands 0 false true ['，'] 1 0 [] = none := by
  induction fuel with
  | zero => rfl
  | succ f ih =>
    have hstep : convertLoop (f + 1) cands 0 false true ['，'] 1 0 [] =
        convertLoop f cands 0 false true ['，'] 1 0 [] := by
      simp [convertLoop, h]
    rw [hstep]; exact ih

/-- Witness: with no candidates at all, the `only_hans` loop on `，` is
stuck for the concrete fuel bound 9. -/
theorem claim_C1_witness :
    findMatch [] 0 ['，'] 1 0 = none ∧
    convertLoop 9 [] 0 false true ['，'] 1 0 [] = none :=
  ⟨rfl, claim_C1_only_hans_loop_never_terminates 9 [] rfl⟩

/-- C2: with `only_hans` false (the default), `Converter::convert` on the
one-character punctuation input `，` (which matches no dictionary key, cf.
the matcher tests) panics inside `Pinyin::new` on the fallback path
instead of emitting a tone-5 entry, so no entries are emitted at all and
the claimed reconstruction of the input fails. -/
theorem claim_C2_fallback_panics_on_punctuation :
    Converter.convertWith 1 (Converter.new ['，']) [] [] [] =
      some RunRes.panicked := by decide

/-- C3: in surname mode `Converter::convert` panics on the empty input for
every dictionary content: `match_surname_pinyin` indexes `results[0]`
while the matcher necessarily returns no hit for an empty query. -/
theorem claim_C3_surname_convert_panics_on_empty_input (fuel : Nat)
    (sh wh ch : List (List KV)) :
    Converter.convertWith fuel ((Converter.new []).asSurnames) sh wh ch =
      some RunRes.panicked := by
  have hflat : sh.flatMap (fun d => dedupeKeys (lmIter d ([] : List Char)))
      = [] := by
    induction sh with
    | nil => rfl
    | cons a t ih => simp [List.flatMap_cons, lmIter, lmIterGo, dedupeKeys, ih]
  have hmt : matchToPinyin sh [] true = [] := by
    unfold matchToPinyin
    rw [hflat]; rfl
  have hms : matchSurnamePinyin sh wh ch [] = none := by
    unfold matchSurnamePinyin
    simp [hmt]
  unfold Converter.convertWith
  simp [Converter.new, Converter.asSurnames, hms]

/-- C4: `format_to_mark` places the diacritic on the first vowel (its
disjunctive guard holds for every character), not on the vowel of the
canonical rule: on the syllable `xia` with tone 4 the code yields `xìa`
while the canonical rule of the spec yields `xià`. -/
theorem claim_C4_mark_placed_on_first_vowel_not_canonical :
    formatToMark ['x', 'i', 'a'] 4 = some ['x', 'ì', 'a'] ∧
    canonicalToneMark ['x', 'i', 'a'] 4 = some ['x', 'i', 'à'] ∧
    formatToMark ['x', 'i', 'a'] 4 ≠ canonicalToneMark ['x', 'i', 'a'] 4 := by
  decide

/-- C5 counterexample: for the valid pinyin `lü` with tone 3, the
tone-number rendering is `lü3`, but parsing it back panics instead of
returning the original value: `from_str` slices with the byte length of
the string while counting characters, so the digit stays in the syllable
and `Pinyin::new` rejects it. -/
theorem claim_C5_counterexample :
    Pinyin.format ⟨['l', 'ü'], 3⟩ ToneStyle.Number = some ['l', 'ü', '3'] ∧
    Pinyin.fromStr ['l', 'ü', '3'] = ParseRes.panicked := by decide

/-- C5 (amended): for valid pinyin whose syllable consists of ASCII
letters only, parsing the tone-number rendering returns the original
value. -/
theorem claim_C5_number_roundtrip_ascii (s : List Char) (t : Nat)
    (hs : s ≠ []) (ha : ∀ c ∈ s, isAsciiAlphabetic c = true)
    (h1 : 1 ≤ t) (h5 : t ≤ 5) :
    Pinyin.format ⟨s, t⟩ ToneStyle.Number = some (Pinyin.toChars ⟨s, t⟩) ∧
    Pinyin.fromStr (Pinyin.toChars ⟨s, t⟩) = ParseRes.ok ⟨s, t⟩ := by
  refine ⟨rfl, ?_⟩
  have hn : natChars t = [Char.ofNat (48 + t)] := natChars_digit (by omega)
  have hts : Pinyin.toChars ⟨s, t⟩ = s ++ [Char.ofNat (48 + t)] := by
    unfold Pinyin.toChars; rw [hn]
  rw [hts, fromStr_append_digit hs ha (charOfNat_digit_toNat (by omega))
    (by omega)]
  rw [if_neg (by omega), if_neg (by omega)]

/-- Witness for the amended C5 round trip at the concrete value
`zhong` with tone 4. -/
theorem claim_C5_witness :
    (['z', 'h', 'o', 'n', 'g'] : List Char) ≠ [] ∧
    Pinyin.fromStr (Pinyin.toChars ⟨['z', 'h', 'o', 'n', 'g'], 4⟩) =
      ParseRes.ok ⟨['z', 'h', 'o', 'n', 'g'], 4⟩ :=
  ⟨by decide,
    (claim_C5_number_roundtrip_ascii ['z', 'h', 'o', 'n', 'g'] 4 (by decide)
      (by decide) (by decide) (by decide)).2⟩

/-- C6 counterexample: with `YuFormat::U` the code maps `v`→`ü` and
`yu`→`ü` (the reverse of the claimed `ü`→`u`), so rendering `lü` tone 3 in
tone-number style yields `lü3`, which contains `ü`. -/
theorem claim_C6_counterexample :
    Pinyin.formatWithYu ⟨['l', 'ü'], 3⟩ ToneStyle.Number YuFormat.U =
      some ['l', 'ü', '3'] ∧
    'ü' ∈ (['l', 'ü', '3'] : List Char) := by decide

/-- C6 (amended): with `YuFormat::U` the rendered string is free of `ü`
only under `ToneStyle::None`, where the final `ü`→`v` substitution runs. -/
theorem claim_C6_toneless_u_has_no_yu (s : List Char) (t : Nat) :
    ∃ r, Pinyin.formatWithYu ⟨s, t⟩ ToneStyle.None YuFormat.U = some r ∧
      'ü' ∉ r := by
  refine ⟨replaceList
      (replaceList (replaceList s ['v'] ['ü']) ['y', 'u'] ['ü']) ['ü'] ['v'],
    ?_, ?_⟩
  · unfold Pinyin.formatWithYu
    simp
  · exact not_mem_replaceGo (by decide) _ _ (le_refl _)

/-- C7 counterexample: on the input `a0` (trailing digit 0, outside 1..5)
`from_str` does not return a `ParseError`: the guard only rejects tones
above 5, and `Pinyin::new` then panics on the zero tone. -/
theorem claim_C7_counterexample :
    Pinyin.fromStr ['a', '0'] = ParseRes.panicked := by decide

/-- C7 (amended): `from_str` returns `ParseError` on the empty string and
on a trailing digit in 6..9; a trailing digit 0 panics instead of
erroring; an ASCII-letter syllable with a trailing digit 1..5 parses to
that syllable and tone, and a well-formed syllable without a trailing
digit parses with tone 5. -/
theorem claim_C7_parse_error_conditions (w w2 : List Char) (D : Char)
    (d : Nat) (hw : w ≠ []) (hwa : ∀ c ∈ w, isAsciiAlphabetic c = true)
    (hD : D.toNat = 48 + d) (hd : d ≤ 9) (hw2 : w2 ≠ [])
    (hw2a : ∀ c ∈ w2, isAsciiAlphabetic c = true ∨ c = 'ü') :
    Pinyin.fromStr [] = ParseRes.err ∧
    Pinyin.fromStr (w ++ [D]) =
      (if 6 ≤ d then ParseRes.err
       else if d = 0 then ParseRes.panicked
       else ParseRes.ok ⟨w, d⟩) ∧
    Pinyin.fromStr w2 = ParseRes.ok ⟨w2, 5⟩ :=
  ⟨rfl, fromStr_append_digit hw hwa hD hd, fromStr_no_digit hw2 hw2a⟩

/-- Witness for the amended C7 at `a0` (panic), with the tone-5 case at
`lü`. -/
theorem claim_C7_witness :
    ('0'.toNat = 48 + 0) ∧
    Pinyin.fromStr (['a'] ++ ['0']) = ParseRes.panicked ∧
    Pinyin.fromStr ['l', 'ü'] = ParseRes.ok ⟨['l', 'ü'], 5⟩ := by
  have h := claim_C7_parse_error_conditions ['a'] ['l', 'ü'] '0' 0
    (by decide) (by decide) (by decide) (by decide) (by decide) (by decide)
  exact ⟨by decide, by simpa using h.2.1, h.2.2⟩

/-- C8 counterexample: toneless rendering substitutes `v` for `ü`:
`format(None)` on `lü` tone 3 yields `lv`, not the unchanged syllable. -/
theorem claim_C8_counterexample :
    Pinyin.format ⟨['l', 'ü'], 3⟩ ToneStyle.None = some ['l', 'v'] ∧
    (['l', 'v'] : List Char) ≠ ['l', 'ü'] := by decide

/-- C8 (amended): toneless rendering returns the syllable with `ü`
replaced by `v` and nothing else changed; in particular syllables without
`ü` come back unchanged, with no digit and no diacritic. -/
theorem claim_C8_toneless_identity_without_yu (s : List Char) (t : Nat)
    (h : 'ü' ∉ s) :
    Pinyin.format ⟨s, t⟩ ToneStyle.None = some s := by
  unfold Pinyin.format replaceList
  rw [replaceGo_not_mem s.length s h]

/-- Witness for the amended C8 at `zhong` tone 4. -/
theorem claim_C8_witness :
    ('ü' ∉ (['z', 'h', 'o', 'n', 'g'] : List Char)) ∧
    Pinyin.format ⟨['z', 'h', 'o', 'n', 'g'], 4⟩ ToneStyle.None =
      some ['z', 'h', 'o', 'n', 'g'] :=
  ⟨by decide,
    claim_C8_toneless_identity_without_yu ['z', 'h', 'o', 'n', 'g'] 4
      (by decide)⟩

/-- C9 counterexample: the candidate list is NOT sorted by descending key
character-length: `sort_by_key_length_desc` sorts by the comparator
`k2.cmp(k1)`, i.e. descending lexicographic order.  With the words
matcher split into two shards holding `你好` and `好`, the query `你好`
returns `好` (one character) before `你好` (two characters), because `好`
is lexicographically greater. -/
theorem claim_C9_counterexample :
    matchWordPinyin [[(['你', '好'], ['n', '3'])], [(['好'], ['h', '3'])]]
        [] ['你', '好'] =
      [(['好'], ['h', '3']), (['你', '好'], ['n', '3'])] ∧
    lenDescChain
      (matchWordPinyin [[(['你', '好'], ['n', '3'])], [(['好'], ['h', '3'])]]
        [] ['你', '好']) = false := by decide

/-- C9 (amended): the list returned by `sort_by_key_length_desc` is sorted
in descending lexicographic key order (every key is `lexLe`-above the keys
after it); this places any key before its own proper prefixes but is not
descending character-length order in general. -/
theorem claim_C9_sorted_desc_lex (l : List KV) :
    List.Sorted (fun a b : KV => lexLe b.1 a.1 = true)
      (sortByKeyLengthDesc l) := by
  haveI ht : IsTotal KV (fun a b : KV => lexLe b.1 a.1 = true) :=
    ⟨fun a b => lexLe_total b.1 a.1⟩
  haveI htr : IsTrans KV (fun a b : KV => lexLe b.1 a.1 = true) :=
    ⟨fun a b c hab hbc => lexLe_trans c.1 b.1 a.1 hbc hab⟩
  exact List.sorted_insertionSort _ l

/-- C10: `yu_to_v` sets the ü-format to `V`, resets the tone style to
`None`, and leaves the input and the `surname_mode`, `flatten` and
`only_hans` flags unchanged. -/
theorem claim_C10_yu_to_v_frame (c : Converter) :
    (c.yuToV).yuFormat = YuFormat.V ∧
    (c.yuToV).toneStyle = ToneStyle.None ∧
    (c.yuToV).input = c.input ∧
    (c.yuToV).surnameMode = c.surnameMode ∧
    (c.yuToV).flatten = c.flatten ∧
    (c.yuToV).onlyHans = c.onlyHans :=
  ⟨rfl, rfl, rfl, rfl, rfl, rfl⟩
